import Mathlib

/-!
Shallow embedding of the snap-news-summary article pipeline.

Sources embedded here:
- src/src/pages/Index.tsx: getSourceCategory, processArticle, sortArticles,
  groupArticlesByTopic, the fetchNews fallback/deduplication logic.
- src/src/components/NewsHeader.tsx (second part of the file): summarizeText.
- src/src/components/Chatbot.tsx: searchArticles and the handleSend reply.

JavaScript strings are modelled as lists of characters (`List Char`); the
relevant string operations (replace of whitespace runs, trim, includes,
toLowerCase, split, the sentence-splitting regex) are translated one by one
below.  `Array.prototype.sort` with a comparator is modelled as a stable
insertion sort (ECMAScript mandates a stable sorted permutation, and every
comparator in this code base is of the consistent key-difference form, for
which the stable sorted permutation is unique).  `new Date(s).getTime()` is
host-environment behaviour and is passed in as an explicit `time` parameter
where it matters.
-/

/-- Whitespace test used for the JS regexes over the character data that
actually occurs in this code base (JS \s also covers rarer Unicode space
code points). -/
def isWsC (c : Char) : Bool := c = ' ' || c = '\t' || c = '\n' || c = '\r'

/-- Sentence-terminal punctuation of the summarizer regex [.!?]. -/
def isTermChar (c : Char) : Bool := c = '.' || c = '!' || c = '?'

/-- Helper for `collapseWs`: the flag records whether the previous character
was whitespace (in which case further whitespace is dropped). -/
def collapseAux : Bool → List Char → List Char
  | _, [] => []
  | prevWs, c :: cs =>
    if isWsC c then
      if prevWs then collapseAux true cs else ' ' :: collapseAux true cs
    else c :: collapseAux false cs

/-- Embedding of `text.replace(/\s+/g, " ")`: every maximal whitespace run
becomes a single space. -/
def collapseWs (l : List Char) : List Char := collapseAux false l

/-- Removes trailing whitespace characters. -/
def trimRight : List Char → List Char
  | [] => []
  | c :: cs =>
    let r := trimRight cs
    if r = [] ∧ isWsC c = true then [] else c :: r

/-- Embedding of `String.prototype.trim`: leading and trailing whitespace
removed. -/
def trimL (l : List Char) : List Char := trimRight (l.dropWhile isWsC)

/-- The summarizer's cleaned text: `text.replace(/\s+/g, " ").trim()`. -/
def cleanL (l : List Char) : List Char := trimL (collapseWs l)

/-- Helper for `splitUnits`; scans left to right.  `acc` holds the current
unit reversed, `phase` is true while consuming the unit's trailing
`[.!?]+` run.  A terminator with no accumulated content cannot start a
match of the regex and is skipped (this happens only for leading
terminator runs). -/
def splitUnitsAux (acc : List Char) (phase : Bool) : List Char → List (List Char)
  | [] => if acc = [] then [] else [acc.reverse]
  | c :: cs =>
    if isTermChar c then
      if acc = [] then splitUnitsAux [] false cs
      else splitUnitsAux (c :: acc) true cs
    else
      if phase then acc.reverse :: splitUnitsAux [c] false cs
      else splitUnitsAux (c :: acc) false cs

/-- Embedding of `cleaned.match(/[^.!?]+[.!?]+|[^.!?]+$/g)`: the list of
sentence-like units (a null match result becomes the empty list). -/
def splitUnits (l : List Char) : List (List Char) := splitUnitsAux [] false l

/-- Helper for `splitWs`. -/
def splitWsAux (acc : List Char) : List Char → List (List Char)
  | [] => if acc = [] then [] else [acc.reverse]
  | c :: cs =>
    if isWsC c then
      if acc = [] then splitWsAux [] cs else acc.reverse :: splitWsAux [] cs
    else splitWsAux (c :: acc) cs

/-- Embedding of `q.split(/\s+/).filter(Boolean)`: whitespace-separated
tokens with empty tokens dropped. -/
def splitWs (l : List Char) : List (List Char) := splitWsAux [] l

/-- The summarizer's fixed placeholder string. -/
def phList : List Char := "No summary available.".toList

/-- The truncation marker appended by the summarizer. -/
def ellipsisMark : List Char := "...".toList

/-- Embedding of `summarizeText` from the summarizer module.  `none` stands
for a null/undefined argument; note that in JS `!text` is also true for the
empty string. -/
def summarizeText (text : Option (List Char)) (maxSentences maxChars : Nat) : List Char :=
  match text with
  | none => phList
  | some t =>
    if t = [] then phList
    else
      let cleaned := cleanL t
      if cleaned = [] then phList
      else
        let sentences := splitUnits cleaned
        if 0 < sentences.length then
          let tk := trimL (List.intercalate [' '] (sentences.take maxSentences))
          if tk.length ≤ maxChars then tk
          else trimL (tk.take maxChars) ++ ellipsisMark
        else
          if cleaned.length ≤ maxChars then cleaned
          else trimL (cleaned.take maxChars) ++ ellipsisMark

/-- Lowercasing of a character list; the data in this code base is ASCII,
where `Char.toLower` agrees with JS `toLowerCase`. -/
def lowerChars (l : List Char) : List Char := l.map Char.toLower

/-- Lowercasing of a string (JS `toLowerCase`). -/
def lowerStr (s : String) : String := ⟨lowerChars s.data⟩

/-- Embedding of `String.prototype.includes`: `pat` occurs contiguously in
the second argument. -/
def isInfixB (pat : List Char) : List Char → Bool
  | [] => pat.isEmpty
  | c :: cs => pat.isPrefixOf (c :: cs) || isInfixB pat cs

/-- Convenience wrapper: `hay.includes(pat)` for a string literal pattern. -/
def strIncludes (hay : List Char) (pat : String) : Bool := isInfixB pat.data hay

/-- The polymorphic `source` field: a bare string or an object with an
optional id and a name. -/
inductive Source where
  | str (s : String)
  | obj (id : Option String) (name : String)
deriving DecidableEq

/-- Raw upstream record shape consumed by `processArticle`; absent optional
fields are `none`. -/
structure RawArticle where
  title : String
  description : Option String := none
  content : Option String := none
  category : Option String := none
  source : Source
  url : String
  publishedAt : String
  urlToImage : Option String := none
  image : Option String := none
deriving DecidableEq

/-- The NewsArticle shape used by the page and the chatbot. -/
structure Article where
  title : String
  summary : String
  fullText : Option String := none
  category : Option String := none
  source : Source
  url : String
  publishedAt : String
  image : Option String := none
deriving DecidableEq

/-- A topic bucket produced by `groupArticlesByTopic`. -/
structure TopicGroup where
  topic : String
  articles : List Article
deriving DecidableEq

/-- Embedding of `getSourceCategory` (Index.tsx lines 24-32).  The guard
`if (!sourceName) return undefined` is also taken for the empty string,
which is falsy in JS. -/
def getSourceCategory (sourceName : Option String) : Option String :=
  match sourceName with
  | none => none
  | some sn =>
    if sn = "" then none
    else
      let name := lowerChars sn.data
      if strIncludes name "tech" || strIncludes name "gadget" || strIncludes name "digital" then
        some "technology"
      else if strIncludes name "sport" || strIncludes name "athletic" || strIncludes name "game" then
        some "sports"
      else if strIncludes name "business" || strIncludes name "finance" || strIncludes name "market" then
        some "business"
      else if strIncludes name "entertainment" || strIncludes name "movie" || strIncludes name "hollywood" then
        some "entertainment"
      else none

/-- The JS property access `article.source?.name`: a bare string has no
`name` property, so only the object variant produces a value. -/
def jsSourceName : Source → Option String
  | Source.str _ => none
  | Source.obj _ n => some n

/-- The category chain of `processArticle`:
`article.category?.toLowerCase() || getSourceCategory(article.source?.name) || 'general'`.
An empty lowercased category string is falsy and falls through. -/
def processCategory (cat : Option String) (src : Source) : String :=
  match cat with
  | some c => if lowerStr c = "" then (getSourceCategory (jsSourceName src)).getD "general" else lowerStr c
  | none => (getSourceCategory (jsSourceName src)).getD "general"

/-- JS `x || d` for an optional string `x` and string default `d` (the
empty string is falsy). -/
def jsOrStr (x : Option String) (d : String) : String :=
  match x with
  | some s => if s = "" then d else s
  | none => d

/-- JS truthiness of an optional string, as an optional value. -/
def jsTruthy (x : Option String) : Option String :=
  match x with
  | some s => if s = "" then none else some s
  | none => none

/-- JS `x || y || null` for optional strings. -/
def jsFirstTruthy (x y : Option String) : Option String :=
  match x with
  | some s => if s = "" then jsTruthy y else some s
  | none => jsTruthy y

/-- Embedding of `processArticle` (Index.tsx lines 204-220). -/
def processArticle (a : RawArticle) : Article :=
  let raw := jsOrStr a.description (jsOrStr a.content "")
  { title := a.title
    summary := ⟨summarizeText (some raw.data) 2 300⟩
    fullText := some raw
    category := some (processCategory a.category a.source)
    source := a.source
    url := a.url
    publishedAt := a.publishedAt
    image := jsFirstTruthy a.urlToImage a.image }

/-- Helper for the seen-set deduplication filter of `fetchNews`
(Index.tsx lines 152-161): keeps a record exactly when its key is not in
`seen`, extending `seen` with each new key. -/
def dedupeSeen (key : α → String) (seen : List String) : List α → List α
  | [] => []
  | a :: as =>
    if key a ∈ seen then dedupeSeen key seen as
    else a :: dedupeSeen key (key a :: seen) as

/-- Deduplication by key, starting from an empty seen set. -/
def dedupeByKey (key : α → String) (l : List α) : List α := dedupeSeen key [] l

/-- The deduplication identity key of `fetchNews`. -/
def dedupeKey (a : Article) : String := a.title ++ "-" ++ a.url

/-- The article deduplication pass of `fetchNews`. -/
def dedupeArticles (l : List Article) : List Article := dedupeByKey dedupeKey l

/-- First-occurrence deduplication of a list of strings (used to describe
the topic insertion order of the groups object). -/
def keepFirstStr (l : List String) : List String := dedupeByKey (fun s => s) l

/-- Modelled from the spec's words for 4.3: keep each first occurrence of a
key, dropping every later record with the same key.  This is the
specification-side description that `dedupeArticles` is compared with. -/
def specKeepFirst (key : α → String) : List α → List α
  | [] => []
  | a :: as => a :: specKeepFirst key (as.filter (fun b => !decide (key b = key a)))
termination_by l => l.length
decreasing_by
  simp only [List.length_cons]
  exact Nat.lt_succ_of_le (List.length_filter_le _ _)

/-- Stable insertion of `a` into `l` under a JS comparator: `a` is placed
before the first element `b` with `cmp a b ≤ 0`. -/
def insertCmp (cmp : α → α → Int) (a : α) : List α → List α
  | [] => [a]
  | b :: l => if cmp a b ≤ 0 then a :: b :: l else b :: insertCmp cmp a l

/-- Embedding of `Array.prototype.sort(cmp)` as the stable sorted
permutation (stable insertion sort, built from the right). -/
def jsSortBy (cmp : α → α → Int) (l : List α) : List α := l.foldr (insertCmp cmp) []

/-- The two sort orders offered by the page. -/
inductive SortOrder where
  | newest
  | oldest
deriving DecidableEq

/-- Embedding of `sortArticles` (Index.tsx lines 49-55); `time` stands for
the host's `new Date(s).getTime()`. -/
def sortArticles (time : String → Int) (order : SortOrder) (xs : List Article) : List Article :=
  jsSortBy (fun a b =>
    match order with
    | SortOrder.newest => time b.publishedAt - time a.publishedAt
    | SortOrder.oldest => time a.publishedAt - time b.publishedAt) xs

/-- The fixed ordered topic taxonomy of `groupArticlesByTopic`. -/
def topicKeywords : List (String × List String) :=
  [("Politics", ["politics", "government", "election", "trump", "biden", "congress", "senate"]),
   ("Technology", ["tech", "ai", "software", "apple", "google", "microsoft", "android", "iphone"]),
   ("Business", ["business", "economy", "market", "stock", "company", "startup", "investment"]),
   ("Sports", ["sports", "game", "player", "team", "football", "basketball", "baseball"]),
   ("Entertainment", ["movie", "film", "celebrity", "actor", "music", "hollywood", "star"]),
   ("Science", ["science", "research", "study", "discovery", "space", "climate"]),
   ("Health", ["health", "medical", "disease", "treatment", "doctor", "patient", "medicine"])]

/-- The lowercased text `${article.title} ${article.summary}` tested by the
topic grouper. -/
def topicText (a : Article) : List Char := lowerChars (a.title ++ " " ++ a.summary).data

/-- The topic the grouper assigns to an article: the first taxonomy entry
with a matching keyword, else "Other". -/
def classify (a : Article) : String :=
  match topicKeywords.find? (fun tk => tk.2.any (fun kw => isInfixB kw.data (topicText a))) with
  | some tk => tk.1
  | none => "Other"

/-- Appends `a` to the group of topic `t`, preserving the object's key
insertion order; a new topic is appended at the end. -/
def insertGroup (gs : List TopicGroup) (t : String) (a : Article) : List TopicGroup :=
  match gs with
  | [] => [{ topic := t, articles := [a] }]
  | g :: rest =>
    if g.topic = t then { topic := g.topic, articles := g.articles ++ [a] } :: rest
    else g :: insertGroup rest t a

/-- The groups object of `groupArticlesByTopic` after the forEach loop,
as `Object.entries` lists it (key insertion order). -/
def buildGroups (xs : List Article) : List TopicGroup :=
  xs.foldl (fun gs a => insertGroup gs (classify a) a) []

/-- Embedding of `groupArticlesByTopic` (Index.tsx lines 57-96). -/
def groupArticlesByTopic (xs : List Article) : List TopicGroup :=
  jsSortBy (fun g1 g2 => (g2.articles.length : Int) - (g1.articles.length : Int)) (buildGroups xs)

/-- The display name the chatbot reads from the polymorphic source field
(`typeof a.source === "string" ? a.source : a.source.name`). -/
def sourceDisplay : Source → String
  | Source.str s => s
  | Source.obj _ n => n

/-- The combined lowercased text the chatbot searches:
`${a.title} ${a.summary} ${sourceName}`. -/
def searchText (a : Article) : List Char :=
  lowerChars (a.title ++ " " ++ a.summary ++ " " ++ sourceDisplay a.source).data

/-- The normalized query `query.toLowerCase().trim()`. -/
def queryNorm (q : String) : List Char := trimL (lowerChars q.data)

/-- The chatbot's score of a text against the token list: one point per
token contained as a substring. -/
def scoreTokens (tokens : List (List Char)) (text : List Char) : Nat :=
  tokens.countP (fun t => isInfixB t text)

/-- The score `searchArticles` gives an article text for a query. -/
def scoreOf (q : String) (text : List Char) : Nat :=
  scoreTokens (splitWs (queryNorm q)) text

/-- The `searchArticles` pipeline (Chatbot.tsx lines 32-52), generic in the
text extractor so the same definition can be run over index-annotated
articles: score, keep positive scores, stable sort by score descending,
slice to 6, project the articles. -/
def searchPipeline (textOf : α → List Char) (q : String) (arts : List α) : List α :=
  let qn := queryNorm q
  if qn = [] then []
  else
    let tokens := splitWs qn
    (((jsSortBy (fun s1 s2 => (s2.2 : Int) - (s1.2 : Int))
        ((arts.map (fun a => (a, scoreTokens tokens (textOf a)))).filter
          (fun s => decide (0 < s.2)))).take 6).map (fun s => s.1))

/-- Embedding of `searchArticles`. -/
def searchArticles (q : String) (arts : List Article) : List Article :=
  searchPipeline searchText q arts

/-- The same pipeline run over position-annotated articles, used to state
the tie-breaking-by-original-order property. -/
def searchIndexed (q : String) (arts : List Article) : List (Nat × Article) :=
  searchPipeline (fun p => searchText p.2) q arts.enum

/-- The two reply shapes of `handleSend`. -/
inductive ChatReply where
  | notFound (q : String)
  | found (arts : List Article)
deriving DecidableEq

/-- Embedding of the reply logic of `handleSend` (Chatbot.tsx lines 54-73):
an empty trimmed input produces no message, zero results produce the
not-found reply, otherwise the results are listed. -/
def chatReply (q : String) (arts : List Article) : Option ChatReply :=
  if trimL q.data = [] then none
  else
    let results := searchArticles q arts
    if results = [] then some (ChatReply.notFound q) else some (ChatReply.found results)

/-- The three JSON shapes `fetchNews` distinguishes in the local fallback
payload: an object with an `articles` field, a bare array, anything else. -/
inductive FallbackJson where
  | withArticles (raws : List RawArticle)
  | bareArray (arts : List Article)
  | other
deriving DecidableEq

/-- Environment of one `fetchNews` run.  `primaryData` is `res.data` of the
Supabase call: `none` when no data came back, `some none` when the data has
no `articles` field, `some (some l)` when it has one.  `fallback` is the
parsed `/news.json` payload, `none` when that fetch fails. -/
structure FetchEnv where
  primaryData : Option (Option (List Article))
  fallback : Option FallbackJson
deriving DecidableEq

/-- Outcome of a `fetchNews` run: the article list passed to `setArticles`
(empty when nothing is set) and whether the local fallback was attempted. -/
structure FetchResult where
  articles : List Article
  fallbackAttempted : Bool
deriving DecidableEq

/-- The synthetic placeholder article set when the fallback fetch throws.
Its `publishedAt` is `new Date().toISOString()` in the source, which is
host-clock behaviour; it is modelled as the empty string. -/
def dummyArticle : Article :=
  { title := "Test Article"
    summary := "This is a test article to verify rendering."
    category := some "tech"
    source := Source.str "Test Source"
    url := "https://example.com"
    publishedAt := "" }

/-- Embedding of the data flow of `fetchNews` (Index.tsx lines 98-198).
The fallback is attempted exactly when `!data?.articles` holds, i.e. when
`primaryData` is `none` or `some none`; a present `articles` array is
truthy in JS even when empty. -/
def fetchNewsModel (env : FetchEnv) : FetchResult :=
  match env.primaryData with
  | some (some arts) => { articles := arts, fallbackAttempted := false }
  | _ =>
    match env.fallback with
    | some (FallbackJson.withArticles raws) =>
      { articles := dedupeArticles (raws.map processArticle), fallbackAttempted := true }
    | some (FallbackJson.bareArray arts) => { articles := arts, fallbackAttempted := true }
    | some FallbackJson.other => { articles := [], fallbackAttempted := true }
    | none => { articles := [dummyArticle], fallbackAttempted := true }

/-! ## Concrete sample data used by counterexamples and witnesses -/

/-- Sample article whose text matches only the Technology keywords. -/
def artTech : Article :=
  { title := "apple", summary := "", source := Source.str "s", url := "u1", publishedAt := "" }

/-- Sample article whose text matches only the Politics keywords. -/
def artPol : Article :=
  { title := "congress", summary := "", source := Source.str "s", url := "u2", publishedAt := "" }

/-- Sample article mentioning no search keyword of interest. -/
def artQuiet : Article :=
  { title := "Quiet day", summary := "Nothing much happened.", source := Source.str "Gazette",
    url := "u1", publishedAt := "2024-01-01" }

/-- Sample article mentioning "football" in its summary. -/
def artFootball : Article :=
  { title := "Match report", summary := "A great football match.",
    source := Source.obj none "Daily Post", url := "u2", publishedAt := "2024-01-02" }

/-- The demo in-memory article set for the chat search scenario. -/
def demoArticles : List Article := [artQuiet, artFootball]

/-- Article with title "a-b" and url "c": identity key "a-b-c". -/
def artKeyAB : Article :=
  { title := "a-b", summary := "", source := Source.str "s", url := "c", publishedAt := "" }

/-- Article with title "a" and url "b-c": the same identity key "a-b-c". -/
def artKeyA : Article :=
  { title := "a", summary := "", source := Source.str "s", url := "b-c", publishedAt := "" }

/-- Raw record with a bare-string source whose name contains "tech" and no
explicit category. -/
def rawStrSource : RawArticle :=
  { title := "T", source := Source.str "TechDaily", url := "u", publishedAt := "" }

/-- Fetch environment where the primary source answers successfully with an
empty article list and a fallback payload is available. -/
def envEmptyPrimary : FetchEnv :=
  { primaryData := some (some []), fallback := some (FallbackJson.withArticles []) }

/-- Sample articles with distinct `publishedAt` strings for the sort
witness. -/
def artOld : Article :=
  { title := "A", summary := "", source := Source.str "s", url := "uA", publishedAt := "a" }

/-- Second sample article for the sort witness. -/
def artNew : Article :=
  { title := "B", summary := "", source := Source.str "s", url := "uB", publishedAt := "bb" }

/-- A concrete stand-in for `new Date(s).getTime()` used by the sort
witness: the length of the string. -/
def lenTime (s : String) : Int := (s.data.length : Int)

/-! ## General list lemmas -/

theorem length_dropWhile_le (p : α → Bool) (l : List α) :
    (l.dropWhile p).length ≤ l.length := by
  induction l with
  | nil => simp
  | cons c cs ih =>
    rw [List.dropWhile_cons]
    split
    · exact Nat.le_succ_of_le ih
    · simp

theorem mem_dropWhile_of_not (p : α → Bool) {c : α} {l : List α}
    (hc : c ∈ l) (hp : p c = false) : c ∈ l.dropWhile p := by
  induction l with
  | nil => simp at hc
  | cons a t ih =>
    rw [List.dropWhile_cons]
    split
    · rcases List.mem_cons.mp hc with h | h
      · subst h; simp_all
      · exact ih h
    · exact hc

theorem dropWhile_idem (p : α → Bool) (l : List α) :
    (l.dropWhile p).dropWhile p = l.dropWhile p := by
  induction l with
  | nil => simp
  | cons c cs ih =>
    rw [List.dropWhile_cons]
    split
    · exact ih
    · rw [List.dropWhile_cons]
      simp_all

theorem getLast?_cons_of_ne_nil {c : α} {cs : List α} (h : cs ≠ []) :
    (c :: cs).getLast? = cs.getLast? := by
  cases cs with
  | nil => exact absurd rfl h
  | cons b bs => exact List.getLast?_cons_cons

/-! ## Trimming lemmas -/

theorem trimRight_eq_nil_iff (l : List Char) :
    trimRight l = [] ↔ ∀ c ∈ l, isWsC c = true := by
  induction l with
  | nil => simp [trimRight]
  | cons c cs ih =>
    simp only [trimRight]
    split
    · rename_i h
      simp only [List.mem_cons, true_iff]
      intro x hx
      rcases hx with h1 | h1
      · subst h1; exact h.2
      · exact (ih.mp h.1) x h1
    · rename_i h
      constructor
      · intro hfalse; simp at hfalse
      · intro hall
        exact absurd ⟨ih.mpr (fun x hx => hall x (List.mem_cons_of_mem _ hx)),
          hall c (List.mem_cons_self _ _)⟩ h

theorem trimRight_cases (c : Char) (cs : List Char) :
    trimRight (c :: cs) = [] ∨ trimRight (c :: cs) = c :: trimRight cs := by
  simp only [trimRight]
  split
  · exact Or.inl rfl
  · exact Or.inr rfl

theorem trimRight_idem (l : List Char) : trimRight (trimRight l) = trimRight l := by
  induction l with
  | nil => simp [trimRight]
  | cons c cs ih =>
    simp only [trimRight]
    split
    · simp [trimRight]
    · rename_i h
      simp only [trimRight, ih]
      split
      · rename_i h2
        exact absurd h2 h
      · rfl

theorem trimRight_getLast? (l : List Char) :
    ∀ x, (trimRight l).getLast? = some x → isWsC x = false := by
  induction l with
  | nil => intro x hx; simp [trimRight] at hx
  | cons c cs ih =>
    intro x hx
    simp only [trimRight] at hx
    split at hx
    · simp at hx
    · rename_i h
      rcases hr : trimRight cs with _ | ⟨b, bs⟩
      · rw [hr] at hx
        simp at hx
        subst hx
        rcases Decidable.em (isWsC c = true) with hc | hc
        · exact absurd ⟨hr, hc⟩ h
        · simpa using hc
      · rw [hr] at hx
        rw [List.getLast?_cons_cons] at hx
        rw [← hr] at hx
        exact ih x hx

theorem dropWhile_trimRight_stable (l : List Char) :
    (trimRight (l.dropWhile isWsC)).dropWhile isWsC = trimRight (l.dropWhile isWsC) := by
  rcases hY : l.dropWhile isWsC with _ | ⟨c, cs⟩
  · simp [trimRight]
  · have hidem := dropWhile_idem isWsC l
    rw [hY] at hidem
    have hc : isWsC c = false := by
      by_contra hcc
      simp only [Bool.not_eq_false] at hcc
      rw [List.dropWhile_cons, if_pos hcc] at hidem
      have hle := length_dropWhile_le isWsC cs
      rw [hidem] at hle
      simp at hle
    rcases trimRight_cases c cs with h | h
    · rw [h]; rfl
    · rw [h, List.dropWhile_cons, if_neg (by simp [hc])]

theorem trimL_idem (l : List Char) : trimL (trimL l) = trimL l := by
  unfold trimL
  rw [dropWhile_trimRight_stable, trimRight_idem]

theorem trimL_ne_nil_of_mem {c : Char} {l : List Char}
    (hc : c ∈ l) (hw : isWsC c = false) : trimL l ≠ [] := by
  unfold trimL
  intro hnil
  have hmem : c ∈ l.dropWhile isWsC := mem_dropWhile_of_not isWsC hc hw
  have := (trimRight_eq_nil_iff _).mp hnil c hmem
  rw [this] at hw
  simp at hw

theorem cleanL_getLast? (l : List Char) :
    ∀ x, (cleanL l).getLast? = some x → isWsC x = false := by
  intro x hx
  exact trimRight_getLast? _ x hx

theorem trimL_cleanL (l : List Char) : trimL (cleanL l) = cleanL l := trimL_idem _

/-! ## Sentence splitting lemmas -/

theorem isWsC_of_isTermChar {c : Char} (h : isTermChar c = true) : isWsC c = false := by
  simp only [isTermChar, Bool.or_eq_true, decide_eq_true_eq] at h
  rcases h with (h | h) | h <;> subst h <;> rfl

theorem splitUnitsAux_head_nonws :
    ∀ (l acc : List Char) (phase : Bool) (u : List Char) (rest : List (List Char)),
      splitUnitsAux acc phase l = u :: rest →
      (phase = true → ∃ c ∈ acc, isTermChar c = true) →
      (∀ x, l.getLast? = some x → isWsC x = false) →
      (∀ c cs, acc = c :: cs → l = [] → isWsC c = false) →
      ∃ c ∈ u, isWsC c = false := by
  intro l
  induction l with
  | nil =>
    intro acc phase u rest h h1 h2 h3
    simp only [splitUnitsAux] at h
    split at h
    · simp at h
    · rename_i hacc
      rcases acc with _ | ⟨c, cs⟩
      · exact absurd rfl hacc
      · obtain ⟨hu, _⟩ := List.cons.inj h
        refine ⟨c, ?_, h3 c cs rfl rfl⟩
        rw [← hu, List.mem_reverse]
        exact List.mem_cons_self _ _
  | cons c cs ih =>
    intro acc phase u rest h h1 h2 h3
    simp only [splitUnitsAux] at h
    by_cases hterm : isTermChar c = true
    · rw [if_pos hterm] at h
      split at h
      · rename_i hacc
        refine ih [] false u rest h (by intro hf; cases hf) ?_ (by intro c' cs' hc; cases hc)
        intro x hx
        rcases cs with _ | ⟨b, bs⟩
        · simp at hx
        · exact h2 x (by rwa [getLast?_cons_of_ne_nil (by simp)])
      · rename_i hacc
        refine ih (c :: acc) true u rest h ?_ ?_ ?_
        · intro _
          exact ⟨c, List.mem_cons_self _ _, hterm⟩
        · intro x hx
          rcases cs with _ | ⟨b, bs⟩
          · simp at hx
          · exact h2 x (by rwa [getLast?_cons_of_ne_nil (by simp)])
        · intro c' cs' hc _
          obtain ⟨hc', _⟩ := List.cons.inj hc
          rw [← hc']
          exact isWsC_of_isTermChar hterm
    · rw [if_neg hterm] at h
      by_cases hph : phase = true
      · rw [hph, if_pos rfl] at h
        obtain ⟨hu, _⟩ := List.cons.inj h
        obtain ⟨t, ht, htterm⟩ := h1 hph
        exact ⟨t, by rw [← hu, List.mem_reverse]; exact ht, isWsC_of_isTermChar htterm⟩
      · have hph' : phase = false := by
          rcases phase with _ | _
          · rfl
          · exact absurd rfl hph
        rw [hph', if_neg (by simp)] at h
        refine ih (c :: acc) false u rest h (by intro hf; cases hf) ?_ ?_
        · intro x hx
          rcases cs with _ | ⟨b, bs⟩
          · simp at hx
          · exact h2 x (by rwa [getLast?_cons_of_ne_nil (by simp)])
        · intro c' cs' hc hcs
          obtain ⟨hc', _⟩ := List.cons.inj hc
          subst hcs
          rw [← hc']
          have : (c :: ([] : List Char)).getLast? = some c := rfl
          exact h2 c this

theorem splitUnits_head_nonws {l u : List Char} {rest : List (List Char)}
    (h : splitUnits l = u :: rest)
    (h2 : ∀ x, l.getLast? = some x → isWsC x = false) :
    ∃ c ∈ u, isWsC c = false := by
  refine splitUnitsAux_head_nonws l [] false u rest h (by intro hf; cases hf) h2 ?_
  intro c cs hc
  cases hc

theorem mem_intercalate_head {c : Char} (sep u : List Char) (L : List (List Char))
    (hc : c ∈ u) : c ∈ List.intercalate sep (u :: L) := by
  cases L with
  | nil => simpa [List.intercalate] using hc
  | cons v L' =>
    have : List.intercalate sep (u :: v :: L') = u ++ sep ++ List.intercalate sep (v :: L') := by
      simp [List.intercalate]
    rw [this]
    exact List.mem_append_left _ (List.mem_append_left _ hc)

/-! ## Claims C5 and C6: the summarizer -/

/-- C5, counterexample: the text "Hello. World." has 2 sentence units (≤ 2)
and cleaned length 14 (≤ 300), yet `summarizeText` does not return the
cleaned text verbatim: the join re-inserts a separator space in front of
the second unit's retained leading space, producing "Hello.  World." with
a doubled inner space. -/
theorem c5_counterexample :
    (splitUnits (cleanL "Hello. World.".toList)).length ≤ 2 ∧
    (cleanL "Hello. World.".toList).length ≤ 300 ∧
    summarizeText (some "Hello. World.".toList) 2 300 ≠ cleanL "Hello. World.".toList ∧
    summarizeText (some "Hello. World.".toList) 2 300 = "Hello.  World.".toList :=
  ⟨by decide, by decide, by decide, by decide⟩

/-- C5, amended: when the cleaned text forms a single sentence unit, at
least one sentence is requested, and the cleaned length fits in `maxChars`,
`summarizeText` returns the cleaned text verbatim.  (For two or more units
the join duplicates inter-sentence spaces, as the counterexample shows.) -/
theorem c5_theorem (t : List Char) (m c : Nat) (hm : 1 ≤ m)
    (hu : splitUnits (cleanL t) = [cleanL t]) (hc : (cleanL t).length ≤ c) :
    summarizeText (some t) m c = cleanL t := by
  have hclean_ne : cleanL t ≠ [] := by
    intro h0
    rw [h0] at hu
    simp [splitUnits, splitUnitsAux] at hu
  have ht_ne : t ≠ [] := by
    intro h0
    subst h0
    exact hclean_ne rfl
  simp only [summarizeText, if_neg ht_ne, if_neg hclean_ne, hu]
  rw [if_pos (by simp)]
  have htake : List.take m [cleanL t] = [cleanL t] :=
    List.take_of_length_le (by simpa using hm)
  rw [htake]
  have hint : List.intercalate [' '] [cleanL t] = cleanL t := by simp [List.intercalate]
  rw [hint, trimL_cleanL, if_pos hc]

/-- C5, witness for the amended theorem at a concrete single-sentence
input. -/
theorem c5_witness :
    summarizeText (some "Hello world.".toList) 2 300 = cleanL "Hello world.".toList :=
  c5_theorem "Hello world.".toList 2 300 (by omega) (by decide) (by decide)

/-- C6, counterexample: with `maxSentences = 0` the summarizer joins zero
sentence units and returns the empty string, so it is not true that
`summarizeText` never returns an empty string for every argument choice. -/
theorem c6_counterexample : summarizeText (some ['a']) 0 300 = [] := by decide

/-- C6, amended: null, empty, and whitespace-only inputs yield the fixed
placeholder "No summary available.", and for every `maxSentences ≥ 1` the
summarizer never returns an empty string (the unamended claim fails only
at `maxSentences = 0`, per the counterexample). -/
theorem c6_theorem (m c : Nat) (t : List Char) (o : Option (List Char)) :
    summarizeText none m c = phList ∧
    summarizeText (some []) m c = phList ∧
    (cleanL t = [] → summarizeText (some t) m c = phList) ∧
    (1 ≤ m → summarizeText o m c ≠ []) := by
  have hph : phList ≠ [] := by decide
  have hell : ellipsisMark ≠ ([] : List Char) := by decide
  refine ⟨rfl, by simp [summarizeText], ?_, ?_⟩
  · intro hcl
    by_cases ht : t = []
    · subst ht; simp [summarizeText]
    · simp [summarizeText, if_neg ht, hcl]
  · intro hm
    rcases o with _ | t'
    · exact hph
    · by_cases ht : t' = []
      · subst ht; simpa [summarizeText] using hph
      · by_cases hcl : cleanL t' = []
        · simpa [summarizeText, if_neg ht, hcl] using hph
        · rcases hsu : splitUnits (cleanL t') with _ | ⟨u, rest⟩
          · simp only [summarizeText, if_neg ht, if_neg hcl, hsu, List.length_nil,
              Nat.lt_irrefl, if_false]
            split
            · exact hcl
            · exact List.append_ne_nil_of_right_ne_nil _ hell
          · obtain ⟨ch, hchu, hchw⟩ :=
              splitUnits_head_nonws hsu (cleanL_getLast? t')
            have htk : trimL (List.intercalate [' ']
                ((u :: rest).take m)) ≠ [] := by
              rw [List.take_cons hm]
              exact trimL_ne_nil_of_mem (mem_intercalate_head [' '] u _ hchu) hchw
            simp only [summarizeText, if_neg ht, if_neg hcl, hsu, List.length_cons]
            rw [if_pos (by omega)]
            split
            · exact htk
            · exact List.append_ne_nil_of_right_ne_nil _ hell

/-! ## Deduplication lemmas (claims C7, C10) -/

theorem dedupeSeen_sublist (key : α → String) :
    ∀ (l : List α) (seen : List String), (dedupeSeen key seen l).Sublist l := by
  intro l
  induction l with
  | nil => intro seen; simp [dedupeSeen]
  | cons a as ih =>
    intro seen
    simp only [dedupeSeen]
    split
    · exact (ih seen).cons a
    · exact (ih (key a :: seen)).cons₂ a

theorem dedupeSeen_keys (key : α → String) :
    ∀ (l : List α) (seen : List String),
      ((dedupeSeen key seen l).map key).Nodup ∧
        ∀ b ∈ dedupeSeen key seen l, key b ∉ seen := by
  intro l
  induction l with
  | nil => intro seen; simp [dedupeSeen]
  | cons a as ih =>
    intro seen
    simp only [dedupeSeen]
    split
    · exact ih seen
    · rename_i ha
      obtain ⟨hnd, hdisj⟩ := ih (key a :: seen)
      constructor
      · rw [List.map_cons, List.nodup_cons]
        refine ⟨?_, hnd⟩
        intro hmem
        obtain ⟨b, hb, hkb⟩ := List.mem_map.mp hmem
        exact (hdisj b hb) (by rw [hkb]; exact List.mem_cons_self _ _)
      · intro b hb
        rcases List.mem_cons.mp hb with hb | hb
        · subst hb; exact ha
        · intro hbseen
          exact (hdisj b hb) (List.mem_cons_of_mem _ hbseen)

theorem dedupeSeen_eq_self (key : α → String) :
    ∀ (l : List α) (seen : List String), (l.map key).Nodup →
      (∀ b ∈ l, key b ∉ seen) → dedupeSeen key seen l = l := by
  intro l
  induction l with
  | nil => intro seen _ _; rfl
  | cons a as ih =>
    intro seen hnd hdisj
    rw [List.map_cons, List.nodup_cons] at hnd
    simp only [dedupeSeen, if_neg (hdisj a (List.mem_cons_self _ _))]
    congr 1
    refine ih (key a :: seen) hnd.2 ?_
    intro b hb hbmem
    rcases List.mem_cons.mp hbmem with h | h
    · exact hnd.1 (by rw [← h]; exact List.mem_map_of_mem key hb)
    · exact (hdisj b (List.mem_cons_of_mem _ hb)) h

theorem dedupeByKey_idem (key : α → String) (l : List α) :
    dedupeByKey key (dedupeByKey key l) = dedupeByKey key l := by
  refine dedupeSeen_eq_self key _ [] (dedupeSeen_keys key l []).1 ?_
  intro b _ hb
  simp at hb

theorem dedupeSeen_eq_specKeepFirst (key : α → String) :
    ∀ (l : List α) (seen : List String),
      dedupeSeen key seen l = specKeepFirst key (l.filter (fun b => !decide (key b ∈ seen))) := by
  intro l
  induction l with
  | nil => intro seen; simp [dedupeSeen, specKeepFirst]
  | cons a as ih =>
    intro seen
    simp only [dedupeSeen]
    split
    · rename_i ha
      rw [List.filter_cons, if_neg (by simp [ha])]
      exact ih seen
    · rename_i ha
      rw [List.filter_cons, if_pos (by simp [ha])]
      rw [specKeepFirst, List.filter_filter]
      rw [ih (key a :: seen)]
      have hfc : List.filter (fun b => !decide (key b ∈ key a :: seen)) as =
          List.filter (fun x => !decide (key x = key a) && !decide (key x ∈ seen)) as := by
        refine List.filter_congr ?_
        intro x _
        rcases Decidable.em (key x = key a) with h | h <;>
          rcases Decidable.em (key x ∈ seen) with h2 | h2 <;> simp [h, h2]
      rw [hfc]

theorem dedupeByKey_eq_spec (key : α → String) (l : List α) :
    dedupeByKey key l = specKeepFirst key l := by
  rw [dedupeByKey, dedupeSeen_eq_specKeepFirst key l []]
  congr 1
  simp

theorem mem_map_key_dedupeSeen (key : α → String) :
    ∀ (l : List α) (seen : List String) (k : String),
      k ∈ (dedupeSeen key seen l).map key ↔ k ∉ seen ∧ k ∈ l.map key := by
  intro l
  induction l with
  | nil => intro seen k; simp [dedupeSeen]
  | cons a as ih =>
    intro seen k
    simp only [dedupeSeen]
    split
    · rename_i ha
      rw [ih seen k, List.map_cons, List.mem_cons]
      constructor
      · rintro ⟨h1, h2⟩; exact ⟨h1, Or.inr h2⟩
      · rintro ⟨h1, h2 | h2⟩
        · subst h2; exact absurd ha h1
        · exact ⟨h1, h2⟩
    · rename_i ha
      rw [List.map_cons, List.mem_cons, ih (key a :: seen) k]
      simp only [List.map_cons, List.mem_cons, not_or]
      constructor
      · rintro (h | ⟨⟨hne, hns⟩, h2⟩)
        · subst h; exact ⟨ha, Or.inl rfl⟩
        · exact ⟨hns, Or.inr h2⟩
      · rintro ⟨h1, h2 | h2⟩
        · exact Or.inl h2
        · by_cases hk : k = key a
          · exact Or.inl hk
          · exact Or.inr ⟨⟨hk, h1⟩, h2⟩

theorem mem_keepFirstStr (l : List String) (k : String) :
    k ∈ keepFirstStr l ↔ k ∈ l := by
  have h := mem_map_key_dedupeSeen (fun s => s) l [] k
  simp only [List.map_id'] at h
  simpa [keepFirstStr, dedupeByKey] using h

theorem keepFirstStr_nodup (l : List String) : (keepFirstStr l).Nodup := by
  have h := (dedupeSeen_keys (fun s => s) l []).1
  rwa [List.map_id'] at h

/-- C7: the `fetchNews` deduplication pass is idempotent, keeps exactly the
first occurrence of each identity key `title ++ "-" ++ url` in first-seen
order (it coincides with the specification-side keep-first function), and
maps the empty input to the empty output. -/
theorem c7_theorem (xs : List Article) :
    dedupeArticles (dedupeArticles xs) = dedupeArticles xs ∧
    dedupeArticles xs = specKeepFirst dedupeKey xs ∧
    dedupeArticles ([] : List Article) = [] :=
  ⟨dedupeByKey_idem _ _, dedupeByKey_eq_spec _ _, rfl⟩

/-- C7, witness: the theorem evaluated at a concrete two-element list with
a duplicated key. -/
theorem c7_witness :
    dedupeArticles (dedupeArticles [artKeyAB, artKeyA]) = dedupeArticles [artKeyAB, artKeyA] ∧
    dedupeArticles [artKeyAB, artKeyA] = specKeepFirst dedupeKey [artKeyAB, artKeyA] ∧
    dedupeArticles ([] : List Article) = [] :=
  c7_theorem [artKeyAB, artKeyA]

/-- C10: two articles with different (title, url) pairs collide on the
identity key because plain concatenation is not injective:
("a-b", "c") and ("a", "b-c") both give key "a-b-c", so the second article
is dropped as a duplicate of the first. -/
theorem c10_theorem :
    (artKeyAB.title, artKeyAB.url) ≠ (artKeyA.title, artKeyA.url) ∧
    dedupeKey artKeyAB = dedupeKey artKeyA ∧
    dedupeArticles [artKeyAB, artKeyA] = [artKeyAB] :=
  ⟨by decide, by decide, by decide⟩

/-! ## Stable sort lemmas (claims C2, C3, C8, C9) -/

theorem mem_insertCmp (cmp : α → α → Int) (a x : α) :
    ∀ l, x ∈ insertCmp cmp a l ↔ x = a ∨ x ∈ l := by
  intro l
  induction l with
  | nil => simp [insertCmp]
  | cons b m ih =>
    simp only [insertCmp]
    split
    · simp [List.mem_cons]
    · rw [List.mem_cons, ih, List.mem_cons]
      tauto

theorem insertCmp_perm (cmp : α → α → Int) (a : α) :
    ∀ l, (insertCmp cmp a l).Perm (a :: l) := by
  intro l
  induction l with
  | nil => simp [insertCmp]
  | cons b m ih =>
    simp only [insertCmp]
    split
    · exact List.Perm.refl _
    · exact (ih.cons b).trans (List.Perm.swap a b m)

theorem jsSortBy_perm (cmp : α → α → Int) (l : List α) : (jsSortBy cmp l).Perm l := by
  induction l with
  | nil => exact List.Perm.refl _
  | cons a t ih =>
    show (insertCmp cmp a (jsSortBy cmp t)).Perm (a :: t)
    exact (insertCmp_perm cmp a _).trans (ih.cons a)

theorem insertCmp_append (cmp : α → α → Int) (a : α) :
    ∀ l, (∀ b ∈ l, ¬ cmp a b ≤ 0) → insertCmp cmp a l = l ++ [a] := by
  intro l
  induction l with
  | nil => intro _; rfl
  | cons b m ih =>
    intro hall
    simp only [insertCmp, if_neg (hall b (List.mem_cons_self _ _))]
    rw [ih (fun c hc => hall c (List.mem_cons_of_mem _ hc))]
    rfl

theorem insertCmp_pairwise (key : α → Int) (cmp : α → α → Int)
    (hk : ∀ a b, cmp a b = key b - key a) {P : α → α → Prop} (a : α) :
    ∀ m : List α, m.Pairwise (fun x y => key y < key x ∨ (key y = key x ∧ P x y)) →
      (∀ b ∈ m, P a b) →
      (insertCmp cmp a m).Pairwise (fun x y => key y < key x ∨ (key y = key x ∧ P x y)) := by
  intro m
  induction m with
  | nil => intro _ _; simp [insertCmp]
  | cons b m' ih =>
    intro hm ha
    obtain ⟨hb, hm'⟩ := List.pairwise_cons.mp hm
    simp only [insertCmp]
    split
    · rename_i hab
      rw [hk] at hab
      have hba : key b ≤ key a := by omega
      refine List.pairwise_cons.mpr ⟨?_, hm⟩
      intro y hy
      rcases List.mem_cons.mp hy with rfl | hy
      · rcases lt_or_eq_of_le hba with hlt | heq
        · exact Or.inl hlt
        · exact Or.inr ⟨heq, ha _ (List.mem_cons_self _ _)⟩
      · rcases hb y hy with hlt | ⟨heq, _⟩
        · exact Or.inl (lt_of_lt_of_le hlt hba)
        · rcases lt_or_eq_of_le (heq ▸ hba) with hlt | heq2
          · exact Or.inl hlt
          · exact Or.inr ⟨heq2, ha y (List.mem_cons_of_mem _ hy)⟩
    · rename_i hab
      rw [hk] at hab
      have hba : key a < key b := by omega
      refine List.pairwise_cons.mpr ⟨?_, ih hm' (fun c hc => ha c (List.mem_cons_of_mem _ hc))⟩
      intro y hy
      rcases (mem_insertCmp cmp a y m').mp hy with hy | hy
      · subst hy
        exact Or.inl hba
      · exact hb y hy

theorem jsSortBy_pairwise (key : α → Int) (cmp : α → α → Int)
    (hk : ∀ a b, cmp a b = key b - key a) {P : α → α → Prop} :
    ∀ l : List α, l.Pairwise P →
      (jsSortBy cmp l).Pairwise (fun x y => key y < key x ∨ (key y = key x ∧ P x y)) := by
  intro l
  induction l with
  | nil => intro _; simp [jsSortBy]
  | cons a t ih =>
    intro hl
    obtain ⟨ha, ht⟩ := List.pairwise_cons.mp hl
    show (insertCmp cmp a (jsSortBy cmp t)).Pairwise _
    refine insertCmp_pairwise key cmp hk a _ (ih ht) ?_
    intro b hb
    exact ha b ((jsSortBy_perm cmp t).mem_iff.mp hb)

theorem jsSortBy_sorted (key : α → Int) (cmp : α → α → Int)
    (hk : ∀ a b, cmp a b = key b - key a) (l : List α) :
    (jsSortBy cmp l).Pairwise (fun x y => key y ≤ key x) := by
  have htriv : l.Pairwise (fun _ _ => True) :=
    List.pairwise_iff_forall_sublist.mpr (fun _ => trivial)
  have h := jsSortBy_pairwise key cmp hk l htriv
  refine h.imp ?_
  rintro a b (hlt | ⟨heq, _⟩)
  · exact le_of_lt hlt
  · exact le_of_eq heq

theorem jsSortBy_reverse (key : α → Int) (cmp : α → α → Int)
    (hk : ∀ a b, cmp a b = key b - key a) :
    ∀ l : List α, l.Pairwise (fun x y => key x < key y) → jsSortBy cmp l = l.reverse := by
  intro l
  induction l with
  | nil => intro _; rfl
  | cons a t ih =>
    intro hl
    obtain ⟨ha, ht⟩ := List.pairwise_cons.mp hl
    show insertCmp cmp a (jsSortBy cmp t) = (a :: t).reverse
    rw [ih ht, List.reverse_cons]
    refine insertCmp_append cmp a t.reverse ?_
    intro b hb
    rw [hk]
    have := ha b (List.mem_reverse.mp hb)
    omega

theorem insertCmp_map (g : β → α) (cmp : α → α → Int) (cmp' : β → β → Int)
    (hc : ∀ x y, cmp (g x) (g y) = cmp' x y) (b : β) :
    ∀ m : List β, insertCmp cmp (g b) (m.map g) = (insertCmp cmp' b m).map g := by
  intro m
  induction m with
  | nil => rfl
  | cons c m' ih =>
    simp only [List.map_cons, insertCmp, hc]
    split
    · simp
    · rw [ih]
      simp

theorem jsSortBy_map (g : β → α) (cmp : α → α → Int) (cmp' : β → β → Int)
    (hc : ∀ x y, cmp (g x) (g y) = cmp' x y) :
    ∀ l : List β, jsSortBy cmp (l.map g) = (jsSortBy cmp' l).map g := by
  intro l
  induction l with
  | nil => rfl
  | cons b t ih =>
    show insertCmp cmp (g b) (jsSortBy cmp (t.map g)) = (insertCmp cmp' b (jsSortBy cmp' t)).map g
    rw [ih]
    exact insertCmp_map g cmp cmp' hc b _

/-! ## Claim C8: sorting newest then oldest reverses the order -/

/-- C8: for article lists whose `publishedAt` values parse to pairwise
distinct timestamps (the parse `new Date(s).getTime()` is supplied as the
`time` parameter), sorting "newest" and then sorting the result "oldest"
reverses the element order. -/
theorem c8_theorem (time : String → Int) (xs : List Article)
    (h : (xs.map (fun a => time a.publishedAt)).Nodup) :
    sortArticles time SortOrder.oldest (sortArticles time SortOrder.newest xs) =
      (sortArticles time SortOrder.newest xs).reverse := by
  have hperm := jsSortBy_perm (fun a b : Article => time b.publishedAt - time a.publishedAt) xs
  have hsorted := jsSortBy_sorted (fun a : Article => time a.publishedAt)
    (fun a b : Article => time b.publishedAt - time a.publishedAt) (fun a b => rfl) xs
  have hnd : ((jsSortBy (fun a b : Article => time b.publishedAt - time a.publishedAt) xs).map
      (fun a => time a.publishedAt)).Nodup := ((hperm.map _).nodup_iff).mpr h
  have hne := List.pairwise_map.mp hnd
  have hstrict : (jsSortBy (fun a b : Article => time b.publishedAt - time a.publishedAt) xs).Pairwise
      (fun x y => time y.publishedAt < time x.publishedAt) := by
    refine (hsorted.and hne).imp ?_
    rintro a b ⟨hle, hneq⟩
    rcases lt_or_eq_of_le hle with hlt | heq
    · exact hlt
    · exact absurd heq.symm hneq
  show jsSortBy (fun a b : Article => time a.publishedAt - time b.publishedAt)
      (jsSortBy (fun a b : Article => time b.publishedAt - time a.publishedAt) xs) =
    (jsSortBy (fun a b : Article => time b.publishedAt - time a.publishedAt) xs).reverse
  refine jsSortBy_reverse (fun a : Article => -(time a.publishedAt))
    (fun a b : Article => time a.publishedAt - time b.publishedAt)
    (fun a b => by ring) _ ?_
  refine hstrict.imp ?_
  intro a b hab
  show -(time a.publishedAt) < -(time b.publishedAt)
  omega

/-- C8, witness at a concrete two-article list with distinct timestamps. -/
theorem c8_witness :
    sortArticles lenTime SortOrder.oldest (sortArticles lenTime SortOrder.newest [artOld, artNew]) =
      (sortArticles lenTime SortOrder.newest [artOld, artNew]).reverse :=
  c8_theorem lenTime [artOld, artNew] (by decide)

/-! ## Grouping lemmas (claims C2, C3) -/

theorem dedupeSeen_append_single (key : α → String) :
    ∀ (l : List α) (seen : List String) (x : α),
      dedupeSeen key seen (l ++ [x]) =
        dedupeSeen key seen l ++
          (if key x ∈ seen ∨ key x ∈ l.map key then [] else [x]) := by
  intro l
  induction l with
  | nil =>
    intro seen x
    by_cases h : key x ∈ seen
    · simp [dedupeSeen, h]
    · simp [dedupeSeen, h]
  | cons b l' ih =>
    intro seen x
    simp only [List.cons_append, dedupeSeen, List.append_eq]
    by_cases hb : key b ∈ seen
    · rw [if_pos hb, if_pos hb, ih seen x]
      refine congrArg _ ?_
      refine if_congr ?_ rfl rfl
      constructor
      · rintro (h | h)
        · exact Or.inl h
        · exact Or.inr (by rw [List.map_cons]; exact List.mem_cons_of_mem _ h)
      · rintro (h | h)
        · exact Or.inl h
        · rw [List.map_cons, List.mem_cons] at h
          rcases h with h | h
          · exact Or.inl (h ▸ hb)
          · exact Or.inr h
    · rw [if_neg hb, if_neg hb, ih (key b :: seen) x, List.cons_append]
      refine congrArg _ ?_
      refine congrArg _ ?_
      refine if_congr ?_ rfl rfl
      rw [List.map_cons]
      simp only [List.mem_cons]
      tauto

theorem keepFirstStr_append_single (m : List String) (x : String) :
    keepFirstStr (m ++ [x]) = keepFirstStr m ++ (if x ∈ m then [] else [x]) := by
  have h := dedupeSeen_append_single (fun s => s) m [] x
  simp only [List.map_id', List.not_mem_nil, false_or] at h
  exact h

theorem insertGroup_topics_mem (gs : List TopicGroup) (t : String) (a : Article)
    (ht : t ∈ gs.map (fun g => g.topic)) :
    (insertGroup gs t a).map (fun g => g.topic) = gs.map (fun g => g.topic) := by
  induction gs with
  | nil => simp at ht
  | cons g rest ih =>
    simp only [insertGroup]
    split
    · simp
    · rename_i hgt
      rw [List.map_cons] at ht ⊢
      rw [List.map_cons]
      refine congrArg _ (ih ?_)
      rcases List.mem_cons.mp ht with h | h
      · exact absurd h.symm hgt
      · exact h

theorem insertGroup_topics_new (gs : List TopicGroup) (t : String) (a : Article)
    (ht : t ∉ gs.map (fun g => g.topic)) :
    insertGroup gs t a = gs ++ [{ topic := t, articles := [a] }] := by
  induction gs with
  | nil => rfl
  | cons g rest ih =>
    simp only [insertGroup]
    rw [List.map_cons, List.mem_cons] at ht
    rw [if_neg (fun h => ht (Or.inl h.symm))]
    rw [ih (fun h => ht (Or.inr h))]
    rfl

theorem insertGroup_articles_mem (t : String) (a : Article) (p : List Article) :
    ∀ gs : List TopicGroup,
      (gs.map (fun g => g.topic)).Nodup →
      (∀ g ∈ gs, g.articles = p.filter (fun b => decide (classify b = g.topic))) →
      t ∈ gs.map (fun g => g.topic) → classify a = t →
      ∀ g ∈ insertGroup gs t a,
        g.articles = (p ++ [a]).filter (fun b => decide (classify b = g.topic)) := by
  intro gs
  induction gs with
  | nil => intro _ _ ht _; simp at ht
  | cons g rest ih =>
    intro hnd hinv ht hcl g' hg'
    rw [List.map_cons, List.nodup_cons] at hnd
    simp only [insertGroup] at hg'
    split at hg'
    · rename_i hgt
      rcases List.mem_cons.mp hg' with rfl | hg'
      · show g.articles ++ [a] =
          (p ++ [a]).filter (fun b => decide (classify b = g.topic))
        rw [List.filter_append, ← hinv g (List.mem_cons_self _ _)]
        have hfa : List.filter (fun b => decide (classify b = g.topic)) [a] = [a] := by
          simp [hcl, hgt]
        rw [hfa]
      · rw [List.filter_append, ← hinv g' (List.mem_cons_of_mem _ hg')]
        have hne : g'.topic ≠ t := by
          intro heq
          refine hnd.1 ?_
          rw [hgt, ← heq]
          exact List.mem_map_of_mem _ hg'
        have hfa : List.filter (fun b => decide (classify b = g'.topic)) [a] = [] := by
          simp [hcl]
          exact fun h => hne h.symm
        rw [hfa, List.append_nil]
    · rename_i hgt
      rcases List.mem_cons.mp hg' with rfl | hg'
      · rw [List.filter_append, ← hinv g' (List.mem_cons_self _ _)]
        have hfa : List.filter (fun b => decide (classify b = g'.topic)) [a] = [] := by
          simp [hcl]
          exact fun h => hgt h.symm
        rw [hfa, List.append_nil]
      · refine ih hnd.2 (fun g2 hg2 => hinv g2 (List.mem_cons_of_mem _ hg2)) ?_ hcl g' hg'
        rcases List.mem_cons.mp ht with h | h
        · exact absurd h.symm hgt
        · exact h

theorem insertGroup_articles_new (t : String) (a : Article) (p : List Article)
    (gs : List TopicGroup)
    (hinv : ∀ g ∈ gs, g.articles = p.filter (fun b => decide (classify b = g.topic)))
    (ht : t ∉ gs.map (fun g => g.topic)) (hcl : classify a = t)
    (hclp : ∀ b ∈ p, classify b ≠ t) :
    ∀ g ∈ insertGroup gs t a,
      g.articles = (p ++ [a]).filter (fun b => decide (classify b = g.topic)) := by
  intro g' hg'
  rw [insertGroup_topics_new gs t a ht] at hg'
  rcases List.mem_append.mp hg' with hg' | hg'
  · rw [List.filter_append, ← hinv g' hg']
    have hne : g'.topic ≠ t := by
      intro heq
      exact ht (heq ▸ List.mem_map_of_mem _ hg')
    rw [List.filter_cons, if_neg (by simp [hcl]; exact fun h => hne h.symm)]
    simp
  · rw [List.mem_singleton.mp hg']
    rw [List.filter_append]
    have h1 : p.filter (fun b => decide (classify b = t)) = [] :=
      List.filter_eq_nil_iff.mpr (fun b hb => by simp [hclp b hb])
    simp only [h1]
    rw [List.filter_cons, if_pos (by simp [hcl])]
    simp

theorem buildGroups_inv :
    ∀ (xs p : List Article) (gs : List TopicGroup),
      gs.map (fun g => g.topic) = keepFirstStr (p.map classify) →
      (∀ g ∈ gs, g.articles = p.filter (fun b => decide (classify b = g.topic))) →
      ((xs.foldl (fun gs a => insertGroup gs (classify a) a) gs).map (fun g => g.topic) =
          keepFirstStr ((p ++ xs).map classify) ∧
        ∀ g ∈ xs.foldl (fun gs a => insertGroup gs (classify a) a) gs,
          g.articles = (p ++ xs).filter (fun b => decide (classify b = g.topic))) := by
  intro xs
  induction xs with
  | nil =>
    intro p gs h1 h2
    simpa using ⟨h1, h2⟩
  | cons a xs' ih =>
    intro p gs h1 h2
    have hnd : (gs.map (fun g => g.topic)).Nodup := h1 ▸ keepFirstStr_nodup _
    have step1 : (insertGroup gs (classify a) a).map (fun g => g.topic) =
        keepFirstStr ((p ++ [a]).map classify) := by
      rw [List.map_append, List.map_cons, List.map_nil, keepFirstStr_append_single]
      by_cases hmem : classify a ∈ gs.map (fun g => g.topic)
      · rw [insertGroup_topics_mem gs _ a hmem, h1]
        rw [if_pos (by rw [h1] at hmem; exact (mem_keepFirstStr _ _).mp hmem)]
        simp
      · rw [insertGroup_topics_new gs _ a hmem, List.map_append, h1]
        rw [if_neg (fun hin => hmem (by rw [h1]; exact (mem_keepFirstStr _ _).mpr hin))]
        rfl
    have step2 : ∀ g ∈ insertGroup gs (classify a) a,
        g.articles = (p ++ [a]).filter (fun b => decide (classify b = g.topic)) := by
      by_cases hmem : classify a ∈ gs.map (fun g => g.topic)
      · exact insertGroup_articles_mem _ a p gs hnd h2 hmem rfl
      · refine insertGroup_articles_new _ a p gs h2 hmem rfl ?_
        intro b hb heq
        refine hmem ?_
        rw [h1]
        exact (mem_keepFirstStr _ _).mpr (heq ▸ List.mem_map_of_mem _ hb)
    have := ih (p ++ [a]) (insertGroup gs (classify a) a) step1 step2
    rwa [List.append_assoc, List.singleton_append] at this

theorem buildGroups_topics (xs : List Article) :
    (buildGroups xs).map (fun g => g.topic) = keepFirstStr (xs.map classify) := by
  have h := buildGroups_inv xs [] [] rfl (by intro g hg; simp at hg)
  simpa [buildGroups] using h.1

theorem buildGroups_articles (xs : List Article) :
    ∀ g ∈ buildGroups xs, g.articles = xs.filter (fun b => decide (classify b = g.topic)) := by
  have h := buildGroups_inv xs [] [] rfl (by intro g hg; simp at hg)
  intro g hg
  have := h.2 g (by simpa [buildGroups] using hg)
  simpa using this

theorem insertGroup_len_sum (t : String) (a : Article) :
    ∀ gs : List TopicGroup,
      ((insertGroup gs t a).map (fun g => g.articles.length)).sum =
        (gs.map (fun g => g.articles.length)).sum + 1 := by
  intro gs
  induction gs with
  | nil => simp [insertGroup]
  | cons g rest ih =>
    simp only [insertGroup]
    split
    · simp [List.sum_cons]
      omega
    · rw [List.map_cons, List.sum_cons, List.map_cons, List.sum_cons, ih]
      omega

theorem buildGroups_len_sum (xs : List Article) :
    ((buildGroups xs).map (fun g => g.articles.length)).sum = xs.length := by
  suffices h : ∀ (ys : List Article) (gs : List TopicGroup),
      ((ys.foldl (fun gs a => insertGroup gs (classify a) a) gs).map
        (fun g => g.articles.length)).sum = (gs.map (fun g => g.articles.length)).sum + ys.length by
    have := h xs []
    simpa [buildGroups] using this
  intro ys
  induction ys with
  | nil => intro gs; simp
  | cons a ys' ih =>
    intro gs
    rw [List.foldl_cons, ih (insertGroup gs (classify a) a), insertGroup_len_sum]
    simp only [List.length_cons]
    omega

theorem pairwise_sublist_map (f : α → β) :
    ∀ l : List α, l.Pairwise (fun x y => [f x, f y].Sublist (l.map f)) := by
  intro l
  induction l with
  | nil => exact List.Pairwise.nil
  | cons a t ih =>
    refine List.pairwise_cons.mpr ⟨?_, ?_⟩
    · intro y hy
      rw [List.map_cons]
      refine List.Sublist.cons₂ _ ?_
      exact List.singleton_sublist.mpr (List.mem_map_of_mem f hy)
    · refine ih.imp ?_
      intro x y hxy
      rw [List.map_cons]
      exact hxy.cons _

/-- C2: `groupArticlesByTopic` partitions its input: the group sizes sum to
the input length; each group holds exactly the input articles classified to
its topic, in input order (`List.filter` preserves relative order); topics
are pairwise distinct, so no article is placed in two groups; every
article lands in the group of its classification (the first matching
taxonomy entry, else "Other"); and the empty input yields the empty
output. -/
theorem c2_theorem (xs : List Article) :
    ((groupArticlesByTopic xs).map (fun g => g.articles.length)).sum = xs.length ∧
    (∀ g ∈ groupArticlesByTopic xs,
      g.articles = xs.filter (fun b => decide (classify b = g.topic))) ∧
    ((groupArticlesByTopic xs).map (fun g => g.topic)).Nodup ∧
    (∀ a ∈ xs, ∃ g ∈ groupArticlesByTopic xs, g.topic = classify a ∧ a ∈ g.articles) ∧
    groupArticlesByTopic ([] : List Article) = [] := by
  have hperm : (groupArticlesByTopic xs).Perm (buildGroups xs) :=
    jsSortBy_perm _ (buildGroups xs)
  have harts : ∀ g ∈ groupArticlesByTopic xs,
      g.articles = xs.filter (fun b => decide (classify b = g.topic)) := by
    intro g hg
    exact buildGroups_articles xs g (hperm.mem_iff.mp hg)
  refine ⟨?_, harts, ?_, ?_, rfl⟩
  · rw [(hperm.map (fun g => g.articles.length)).sum_eq]
    exact buildGroups_len_sum xs
  · refine ((hperm.map (fun g => g.topic)).nodup_iff).mpr ?_
    rw [buildGroups_topics]
    exact keepFirstStr_nodup _
  · intro a ha
    have h1 : classify a ∈ (buildGroups xs).map (fun g => g.topic) := by
      rw [buildGroups_topics]
      exact (mem_keepFirstStr _ _).mpr (List.mem_map_of_mem classify ha)
    obtain ⟨g, hg, hgt⟩ := List.mem_map.mp h1
    refine ⟨g, hperm.mem_iff.mpr hg, hgt, ?_⟩
    rw [harts g (hperm.mem_iff.mpr hg)]
    rw [List.mem_filter]
    exact ⟨ha, by simp [hgt]⟩

/-- C3, counterexample: an input whose first article matches Technology and
whose second matches Politics produces two groups of equal size 1, ordered
[Technology, Politics] — the first-seen topic order, not the taxonomy
declaration order (which lists Politics before Technology). -/
theorem c3_counterexample :
    (groupArticlesByTopic [artTech, artPol]).map (fun g => g.topic) =
      ["Technology", "Politics"] ∧
    (groupArticlesByTopic [artTech, artPol]).map (fun g => g.articles.length) = [1, 1] :=
  ⟨by decide, by decide⟩

/-- C3, amended: the group sequence is sorted non-increasing by member
count, and groups of equal count appear in the order in which their topics
first occur in the input sequence (the groups object's key insertion order,
kept by the stable sort) — not in taxonomy declaration order. -/
theorem c3_theorem (xs : List Article) :
    (groupArticlesByTopic xs).Pairwise (fun g1 g2 =>
      g2.articles.length < g1.articles.length ∨
      (g2.articles.length = g1.articles.length ∧
        [g1.topic, g2.topic].Sublist (keepFirstStr (xs.map classify)))) := by
  have hpw := jsSortBy_pairwise (fun g : TopicGroup => (g.articles.length : Int))
    (fun g1 g2 : TopicGroup => (g2.articles.length : Int) - (g1.articles.length : Int))
    (fun a b => rfl) (buildGroups xs)
    (pairwise_sublist_map (fun g => g.topic) (buildGroups xs))
  rw [buildGroups_topics] at hpw
  refine hpw.imp ?_
  rintro a b (h | ⟨h, hsub⟩)
  · have h' : (b.articles.length : Int) < (a.articles.length : Int) := h
    exact Or.inl (by exact_mod_cast h')
  · have h' : (b.articles.length : Int) = (a.articles.length : Int) := h
    exact Or.inr ⟨by exact_mod_cast h', hsub⟩

/-! ## Search lemmas (claim C9) -/

theorem searchPipeline_mem_score (textOf : α → List Char) (q : String) (arts : List α) :
    ∀ s ∈ (jsSortBy (fun s1 s2 : α × Nat => (s2.2 : Int) - (s1.2 : Int))
        ((arts.map (fun a => (a, scoreTokens (splitWs (queryNorm q)) (textOf a)))).filter
          (fun s => decide (0 < s.2)))).take 6,
      s.2 = scoreOf q (textOf s.1) ∧ 0 < s.2 := by
  intro s hs
  have hs1 : s ∈ jsSortBy (fun s1 s2 : α × Nat => (s2.2 : Int) - (s1.2 : Int))
      ((arts.map (fun a => (a, scoreTokens (splitWs (queryNorm q)) (textOf a)))).filter
        (fun s => decide (0 < s.2))) := List.take_subset 6 _ hs
  have hs2 := (jsSortBy_perm _ _).mem_iff.mp hs1
  obtain ⟨hs3, hpos⟩ := List.mem_filter.mp hs2
  obtain ⟨a, _, haeq⟩ := List.mem_map.mp hs3
  constructor
  · rw [← haeq]
    rfl
  · exact of_decide_eq_true hpos

theorem searchPipeline_facts (textOf : α → List Char) (q : String) (arts : List α) :
    (searchPipeline textOf q arts).length ≤ 6 ∧
    (∀ a ∈ searchPipeline textOf q arts, 0 < scoreOf q (textOf a)) ∧
    ((searchPipeline textOf q arts).map (fun a => scoreOf q (textOf a))).Pairwise
      (fun x y => y ≤ x) := by
  by_cases hq : queryNorm q = []
  · refine ⟨?_, ?_, ?_⟩ <;> simp [searchPipeline, hq]
  · simp only [searchPipeline, if_neg hq]
    have hms := searchPipeline_mem_score textOf q arts
    refine ⟨?_, ?_, ?_⟩
    · rw [List.length_map, List.length_take]
      exact min_le_left _ _
    · intro a ha
      obtain ⟨s, hs, hsa⟩ := List.mem_map.mp ha
      obtain ⟨heq, hpos⟩ := hms s hs
      rw [← hsa, ← heq]
      exact hpos
    · have hsorted := jsSortBy_sorted (fun s : α × Nat => (s.2 : Int))
        (fun s1 s2 : α × Nat => (s2.2 : Int) - (s1.2 : Int)) (fun a b => rfl)
        ((arts.map (fun a => (a, scoreTokens (splitWs (queryNorm q)) (textOf a)))).filter
          (fun s => decide (0 < s.2)))
      have h6 := List.Pairwise.sublist (List.take_sublist 6 _) hsorted
      rw [List.pairwise_map, List.pairwise_map]
      refine List.Pairwise.imp_of_mem ?_ h6
      intro s t hs ht hle
      obtain ⟨hseq, _⟩ := hms s hs
      obtain ⟨hteq, _⟩ := hms t ht
      have hle' : (t.2 : Int) ≤ (s.2 : Int) := hle
      rw [← hseq, ← hteq]
      exact_mod_cast hle'

theorem searchPipeline_map (textOf : α → List Char) (f : β → α) (q : String) (l : List β) :
    (searchPipeline (fun b => textOf (f b)) q l).map f = searchPipeline textOf q (l.map f) := by
  by_cases hq : queryNorm q = []
  · simp [searchPipeline, hq]
  · simp only [searchPipeline, if_neg hq]
    rw [List.map_map]
    have hscored : (l.map f).map (fun a => (a, scoreTokens (splitWs (queryNorm q)) (textOf a))) =
        (l.map (fun b => (b, scoreTokens (splitWs (queryNorm q)) (textOf (f b))))).map
          (fun s => (f s.1, s.2)) := by
      rw [List.map_map, List.map_map]
      rfl
    have hpred : ((fun s : α × Nat => decide (0 < s.2)) ∘ (fun s : β × Nat => (f s.1, s.2))) =
        (fun s : β × Nat => decide (0 < s.2)) := rfl
    conv_rhs => rw [hscored, List.filter_map, hpred]
    conv_rhs => rw [jsSortBy_map (fun s : β × Nat => (f s.1, s.2))
      (fun s1 s2 : α × Nat => (s2.2 : Int) - (s1.2 : Int))
      (fun s1 s2 : β × Nat => (s2.2 : Int) - (s1.2 : Int)) (fun x y => rfl)]
    conv_rhs => rw [← List.map_take, List.map_map]
    rfl

theorem enumFrom_pairwise (l : List α) :
    ∀ n : Nat, (List.enumFrom n l).Pairwise (fun x y => x.1 < y.1) := by
  induction l with
  | nil => intro n; simp
  | cons a t ih =>
    intro n
    show ((n, a) :: List.enumFrom (n + 1) t).Pairwise (fun x y => x.1 < y.1)
    refine List.pairwise_cons.mpr ⟨?_, ih (n + 1)⟩
    intro y hy
    have := (List.mem_enumFrom hy).1
    omega

theorem searchIndexed_pairwise (q : String) (arts : List Article) :
    (searchIndexed q arts).Pairwise (fun x y =>
      scoreOf q (searchText y.2) < scoreOf q (searchText x.2) ∨ x.1 < y.1) := by
  by_cases hq : queryNorm q = []
  · simp [searchIndexed, searchPipeline, hq]
  · simp only [searchIndexed, searchPipeline, if_neg hq]
    have hms := searchPipeline_mem_score (fun p : Nat × Article => searchText p.2) q arts.enum
    have hpl : (arts.enum.map
        (fun p => (p, scoreTokens (splitWs (queryNorm q)) (searchText p.2)))).Pairwise
        (fun s t : (Nat × Article) × Nat => s.1.1 < t.1.1) := by
      rw [List.pairwise_map]
      exact enumFrom_pairwise arts 0
    have hflt := hpl.filter (fun s => decide (0 < s.2))
    have hsorted := jsSortBy_pairwise (fun s : (Nat × Article) × Nat => (s.2 : Int))
      (fun s1 s2 : (Nat × Article) × Nat => (s2.2 : Int) - (s1.2 : Int)) (fun a b => rfl)
      _ hflt
    have h6 := List.Pairwise.sublist (List.take_sublist 6 _) hsorted
    rw [List.pairwise_map]
    refine List.Pairwise.imp_of_mem ?_ h6
    intro s t hs ht hr
    obtain ⟨hseq, _⟩ := hms s hs
    obtain ⟨hteq, _⟩ := hms t ht
    rcases hr with hlt | ⟨_, hidx⟩
    · left
      have hlt' : (t.2 : Int) < (s.2 : Int) := hlt
      rw [← hseq, ← hteq]
      exact_mod_cast hlt'
    · right
      exact hidx

/-- C9: the chat search returns at most 6 articles, all with a positive
token-containment score against the combined title+summary+source text,
ranked by non-increasing score; the run over position-annotated articles
projects to the same result and is ordered so that any earlier entry either
scores strictly higher or precedes in the original article order (stable
tie-breaking); a query matching nothing yields the not-found reply rather
than an error; and the query "football" against a set whose only article
mentioning football does so in its summary returns exactly that article. -/
theorem c9_theorem (q : String) (arts : List Article) :
    (searchArticles q arts).length ≤ 6 ∧
    (∀ a ∈ searchArticles q arts, 0 < scoreOf q (searchText a)) ∧
    ((searchArticles q arts).map (fun a => scoreOf q (searchText a))).Pairwise
      (fun x y => y ≤ x) ∧
    (searchIndexed q arts).map (fun p => p.2) = searchArticles q arts ∧
    (searchIndexed q arts).Pairwise (fun x y =>
      scoreOf q (searchText y.2) < scoreOf q (searchText x.2) ∨ x.1 < y.1) ∧
    (trimL q.data ≠ [] → searchArticles q arts = [] →
      chatReply q arts = some (ChatReply.notFound q)) ∧
    searchArticles "football" demoArticles = [artFootball] := by
  obtain ⟨h1, h2, h3⟩ := searchPipeline_facts searchText q arts
  refine ⟨h1, h2, h3, ?_, searchIndexed_pairwise q arts, ?_, by decide⟩
  · have h := searchPipeline_map searchText (fun p : Nat × Article => p.2) q arts.enum
    rw [List.enum_map_snd] at h
    exact h
  · intro ht hres
    rw [chatReply, if_neg ht]
    simp only [hres]
    rfl

/-! ## Claim C4: the fallback trigger of fetchNews -/

/-- C4, counterexample: when the primary source responds successfully with
an empty articles array, the guard `!data?.articles` is false (an empty JS
array is truthy), so the static local fallback is NOT attempted; the page
just sets the empty list. -/
theorem c4_counterexample :
    (fetchNewsModel envEmptyPrimary).fallbackAttempted = false ∧
    (fetchNewsModel envEmptyPrimary).articles = [] :=
  ⟨by decide, by decide⟩

/-- C4, amended: the fetch orchestrator attempts the static local fallback
exactly when the primary response has no `articles` field at all (no data,
or data without that field); a successful primary response with an empty
article list is accepted as-is without consulting the fallback. -/
theorem c4_theorem (env : FetchEnv) :
    (fetchNewsModel env).fallbackAttempted = true ↔
      (env.primaryData = none ∨ env.primaryData = some none) := by
  rcases env with ⟨pd, fb⟩
  rcases pd with _ | pd2
  · constructor
    · intro _
      exact Or.inl rfl
    · intro _
      rcases fb with _ | fbj
      · rfl
      · rcases fbj <;> rfl
  · rcases pd2 with _ | arts
    · constructor
      · intro _
        exact Or.inr rfl
      · intro _
        rcases fb with _ | fbj
        · rfl
        · rcases fbj <;> rfl
    · simp [fetchNewsModel]

/-! ## Claim C1: category resolution of processArticle -/

theorem lowerStr_eq_empty_iff (s : String) : lowerStr s = "" ↔ s = "" := by
  rw [String.ext_iff, String.ext_iff]
  show lowerChars s.data = ([] : List Char) ↔ s.data = ([] : List Char)
  simp [lowerChars]

/-- C1, counterexample: for a raw record with no category whose source is a
bare string "TechDaily", the heuristic would classify the display name as
"technology", but `processArticle` resolves the category to "general": the
JS access `article.source?.name` is undefined on a bare string, so the
source-name heuristic never sees the name. -/
theorem c1_counterexample :
    getSourceCategory (some "TechDaily") = some "technology" ∧
    rawStrSource.category = none ∧
    rawStrSource.source = Source.str "TechDaily" ∧
    (processArticle rawStrSource).category = some "general" :=
  ⟨by decide, by decide, by decide, by decide⟩

/-- C1, amended: `processArticle` resolves the category in priority order:
(1) the explicit raw category, lowercased, when present and non-empty;
(2) otherwise the source-name heuristic applied to `article.source?.name`,
which is the object variant's name field — a bare-string source yields
undefined there, so the heuristic is skipped for that shape; (3) otherwise
"general".  In particular a bare-string source with no usable explicit
category always resolves to "general". -/
theorem c1_theorem (a : RawArticle) :
    (∀ c, a.category = some c → c ≠ "" →
      (processArticle a).category = some (lowerStr c)) ∧
    ((a.category = none ∨ a.category = some "") →
      (processArticle a).category =
        some ((getSourceCategory (jsSourceName a.source)).getD "general")) ∧
    ((a.category = none ∨ a.category = some "") → ∀ s, a.source = Source.str s →
      (processArticle a).category = some "general") := by
  have hbase : (processArticle a).category = some (processCategory a.category a.source) := rfl
  have h2 : (a.category = none ∨ a.category = some "") →
      (processArticle a).category =
        some ((getSourceCategory (jsSourceName a.source)).getD "general") := by
    intro h
    rw [hbase]
    rcases h with h | h
    · rw [h]
      rfl
    · rw [h]
      simp only [processCategory]
      rw [if_pos (by decide)]
  refine ⟨?_, h2, ?_⟩
  · intro c hc hne
    rw [hbase, hc]
    simp only [processCategory]
    rw [if_neg (fun hh => hne ((lowerStr_eq_empty_iff c).mp hh))]
  · intro h s hs
    rw [h2 h, hs]
    rfl
